import Mathlib

/-!
Shallow embedding of the BufferStream library (src/include/BufferStream.h).

Bytes are modelled as natural numbers; the byte representation of a POD
value of sizeof w is a list of w bytes in native byte order.  Machine
integers are modelled as Nat (uint64) and Int (int64) with the wrap at
2^64 made explicit where the C++ arithmetic can wrap.  Fallible
operations return an Option StreamError next to their results instead of
throwing.
-/

/-- Errors the stream can signal.  outOfBounds models the
std overflow error thrown with the read or write overflow message;
unsupportedEndianSwap models the std invalid argument error thrown with
the big endian POD type message. -/
inductive StreamError where
  | outOfBounds
  | unsupportedEndianSwap
deriving Repr, DecidableEq

/-- The std ios seekdir anchors: beg, cur, end. -/
inductive SeekDir where
  | beg
  | cur
  | fromEnd
deriving Repr, DecidableEq

/-- A fixed layout POD type T, described by its sizeof and by whether it
is an integral, floating point, or enumeration type (the types the
library is willing to byte swap). -/
structure PODType where
  size : Nat
  isArith : Bool
deriving Repr, DecidableEq

/-- A one byte type such as std byte (sizeof 1, integral). -/
def byteT : PODType := ⟨1, true⟩

/-- The char type used by the string overloads (sizeof 1, integral). -/
def charT : PODType := ⟨1, true⟩

/-- uint64 wrap around semantics for a signed intermediate value. -/
def wrap64 (x : Int) : Nat := (x % (2 ^ 64 : Int)).toNat

/-- The value of a uint64 after static cast to int64. -/
def toSigned64 (n : Nat) : Int :=
  if n < 2 ^ 63 then (n : Int) else (n : Int) - (2 ^ 64 : Int)

/-- memcpy out of the buffer: the n bytes starting at offset pos. -/
def readBytes (buf : List Nat) : Nat → Nat → List Nat
  | _, 0 => []
  | pos, n + 1 => buf.getD pos 0 :: readBytes buf (pos + 1) n

/-- memcpy into the buffer: store the given bytes starting at offset
pos.  A store past the end of the modelled region is dropped, the way
List.set drops an out of range index. -/
def writeBytes (buf : List Nat) (pos : Nat) : List Nat → List Nat
  | [] => buf
  | c :: cs => writeBytes (buf.set pos c) (pos + 1) cs

/-- Byte content of a std vector like container after resize to a total
of newByteLen bytes: the kept prefix followed by value initialized
(zero) elements. -/
def containerResize (bytes : List Nat) (newByteLen : Nat) : List Nat :=
  bytes.take newByteLen ++ List.replicate (newByteLen - bytes.length) 0

/-- One step of the growth loop in the resizable container constructor:
an empty container grows to one element, otherwise the element count
doubles. -/
def growStep (c : Nat) : Nat := if c = 0 then 1 else c * 2

/-- The growth loop, fuelled.  The C++ while loop runs until the byte
capacity curSize times elemSize reaches the target; the fuel is an upper
bound on the number of iterations, shown sufficient in the lemmas. -/
def growCountAux (s target : Nat) : Nat → Nat → Nat
  | 0, cur => cur
  | fuel + 1, cur =>
    if cur * s < target then growCountAux s target fuel (growStep cur) else cur

/-- The element count the growth callback resizes the container to, for
element size s, current element count cur and requested byte length
target. -/
def growCount (s cur target : Nat) : Nat := growCountAux s target target cur

/-- The BufferStream state.  buffer models the bytes reachable through
the stored pointer, i.e. the whole storage of the backing container;
bufferLen, bufferPos, useExceptions and bigEndian are the fields of the
same names.  The std function callback member is modelled by growable
(whether the resizable container constructor installed the callback)
together with elemSize and elemCount (the value type size and element
count of the captured container). -/
structure BufferStream where
  buffer : List Nat
  bufferLen : Nat
  bufferPos : Nat
  growable : Bool
  elemSize : Nat
  elemCount : Nat
  useExceptions : Bool
  bigEndian : Bool
deriving Repr, DecidableEq

/-- BufferStream seek.  The offset is the int64 argument; the wrap at
2^64 in bufferPos plus offset reproduces the uint64 arithmetic of the
source. -/
def BufferStream.seek (st : BufferStream) (offset : Int) (dir : SeekDir) :
    Option StreamError × BufferStream :=
  match dir with
  | .beg =>
    if st.useExceptions ∧ ((st.bufferLen : Int) < offset ∨ offset < 0) then
      (some .outOfBounds, st)
    else
      (none, { st with bufferPos := wrap64 offset })
  | .cur =>
    if st.useExceptions ∧ (st.bufferLen < wrap64 ((st.bufferPos : Int) + offset)
        ∨ toSigned64 st.bufferPos + offset < 0) then
      (some .outOfBounds, st)
    else
      (none, { st with bufferPos := wrap64 ((st.bufferPos : Int) + offset) })
  | .fromEnd =>
    if st.useExceptions ∧ ((st.bufferLen : Int) < offset ∨ offset < 0) then
      (some .outOfBounds, st)
    else
      (none, { st with bufferPos := wrap64 ((st.bufferLen : Int) - offset) })

/-- BufferStream skip with element size tsize: a no op when n is zero,
otherwise seek by sizeof times n from cur.  The product is computed in
uint64 and passed as the int64 seek offset. -/
def BufferStream.skip (st : BufferStream) (tsize : Nat) (n : Int) :
    Option StreamError × BufferStream :=
  if n = 0 then (none, st)
  else BufferStream.seek st (toSigned64 (wrap64 ((tsize : Int) * n))) .cur

/-- BufferStream resize_buffer: false when no callback is installed;
otherwise runs the callback of the resizable container constructor
(grow the element count, resize the container) and sets bufferLen to
the requested length. -/
def BufferStream.resizeBuffer (st : BufferStream) (newLen : Nat) :
    Bool × BufferStream :=
  if st.growable then
    (true,
      { st with
        elemCount := growCount st.elemSize st.elemCount newLen
        buffer := containerResize st.buffer
          (growCount st.elemSize st.elemCount newLen * st.elemSize)
        bufferLen := newLen })
  else
    (false, st)

/-- BufferStream read of a single POD value.  nativeBig is the host
endianness.  The middle component is the state of the destination
object after the call: none when the out of bounds throw happens before
the memcpy, otherwise the bytes the call stored (on the unsupported
endian swap throw the raw bytes were already copied in). -/
def BufferStream.read (nativeBig : Bool) (t : PODType) (st : BufferStream) :
    Option StreamError × Option (List Nat) × BufferStream :=
  if st.useExceptions ∧ st.bufferLen < st.bufferPos + t.size then
    (some .outOfBounds, none, st)
  else
    let raw := readBytes st.buffer st.bufferPos t.size
    if 1 < t.size ∧ st.bigEndian ≠ nativeBig then
      if t.isArith then
        (none, some raw.reverse, { st with bufferPos := st.bufferPos + t.size })
      else if st.useExceptions then
        (some .unsupportedEndianSwap, some raw, st)
      else
        (none, some raw, { st with bufferPos := st.bufferPos + t.size })
    else
      (none, some raw, { st with bufferPos := st.bufferPos + t.size })

/-- The tail of BufferStream write after the room check: memcpy the
native order bytes v into the buffer, then swap in place, refuse, or
skip the swap, then advance.  The in place swap stores the reversal of
the just written region. -/
def BufferStream.writeCommit (nativeBig : Bool) (t : PODType) (v : List Nat)
    (st : BufferStream) : Option StreamError × BufferStream :=
  let buf1 := writeBytes st.buffer st.bufferPos v
  if 1 < t.size ∧ st.bigEndian ≠ nativeBig then
    if t.isArith then
      (none,
        { st with
          buffer := writeBytes buf1 st.bufferPos
            (readBytes buf1 st.bufferPos t.size).reverse
          bufferPos := st.bufferPos + t.size })
    else if st.useExceptions then
      (some .unsupportedEndianSwap, { st with buffer := buf1 })
    else
      (none, { st with buffer := buf1, bufferPos := st.bufferPos + t.size })
  else
    (none, { st with buffer := buf1, bufferPos := st.bufferPos + t.size })

/-- BufferStream write of a single POD value with native order bytes v:
when the value does not fit, try resize_buffer first, and throw out of
bounds only when that fails and exceptions are on; then commit. -/
def BufferStream.write (nativeBig : Bool) (t : PODType) (v : List Nat)
    (st : BufferStream) : Option StreamError × BufferStream :=
  if st.bufferLen < st.bufferPos + t.size then
    if st.growable then
      BufferStream.writeCommit nativeBig t v
        (BufferStream.resizeBuffer st (st.bufferPos + t.size)).2
    else if st.useExceptions then
      (some .outOfBounds, st)
    else
      BufferStream.writeCommit nativeBig t v st
  else
    BufferStream.writeCommit nativeBig t v st

/-- The non template single byte at accessor.  On the throw paths the
byte component is a dummy zero. -/
def BufferStream.atByte (st : BufferStream) (offset : Int) (dir : SeekDir) :
    Option StreamError × Nat :=
  match dir with
  | .beg =>
    if st.useExceptions ∧ ((st.bufferLen : Int) < offset ∨ offset < 0) then
      (some .outOfBounds, 0)
    else
      (none, st.buffer.getD (wrap64 offset) 0)
  | .cur =>
    if st.useExceptions ∧ (st.bufferLen < wrap64 ((st.bufferPos : Int) + offset)
        ∨ toSigned64 st.bufferPos + offset < 0) then
      (some .outOfBounds, 0)
    else
      (none, st.buffer.getD (wrap64 ((st.bufferPos : Int) + offset)) 0)
  | .fromEnd =>
    if st.useExceptions ∧ ((st.bufferLen : Int) < offset ∨ offset ≤ 0) then
      (some .outOfBounds, 0)
    else
      (none, st.buffer.getD (wrap64 ((st.bufferLen : Int) - offset)) 0)

/-- The single byte peek: at with offset zero from cur. -/
def BufferStream.peekByte (st : BufferStream) : Option StreamError × Nat :=
  BufferStream.atByte st 0 .cur

/-- The template at accessor: record tell, seek to the target, read a
value, seek back, return the value.  A throw in the seek or the read
propagates before the restoring seek runs. -/
def BufferStream.atT (nativeBig : Bool) (t : PODType) (offset : Int)
    (dir : SeekDir) (st : BufferStream) :
    Option StreamError × Option (List Nat) × BufferStream :=
  let pos := st.bufferPos
  match BufferStream.seek st offset dir with
  | (some e, st1) => (some e, none, st1)
  | (none, st1) =>
    match BufferStream.read nativeBig t st1 with
    | (some e, obj, st2) => (some e, obj, st2)
    | (none, obj, st2) =>
      match BufferStream.seek st2 (toSigned64 pos) .beg with
      | (some e, st3) => (some e, obj, st3)
      | (none, st3) => (none, obj, st3)

/-- The loop of the counted string read: with r characters still owed,
read a char; on a terminator with stopOnNullTerminator set, skip the
remaining distance and stop accumulating; otherwise append and
continue. -/
def readStringLoop (nativeBig : Bool) (stop : Bool) :
    Nat → List Nat → BufferStream → Option StreamError × List Nat × BufferStream
  | 0, acc, st => (none, acc, st)
  | r + 1, acc, st =>
    match BufferStream.read nativeBig charT st with
    | (some e, _, st1) => (some e, acc, st1)
    | (none, obj, st1) =>
      match obj with
      | none => (none, acc, st1)
      | some bytes =>
        if bytes.getD 0 0 = 0 ∧ stop then
          match BufferStream.skip st1 1 (r : Int) with
          | (some e, st2) => (some e, acc, st2)
          | (none, st2) => (none, acc, st2)
        else
          readStringLoop nativeBig stop r (acc ++ [bytes.getD 0 0]) st1

/-- The counted string read: bounds check against n chars, clear the
output, then run the loop.  On the initial throw the output object is
untouched in the source; the claims only look at the in bounds case. -/
def BufferStream.readStringN (nativeBig : Bool) (st : BufferStream) (n : Nat)
    (stop : Bool) : Option StreamError × List Nat × BufferStream :=
  if st.useExceptions ∧ st.bufferLen < st.bufferPos + n then
    (some .outOfBounds, [], st)
  else
    readStringLoop nativeBig stop n [] st

/-- The loop of the string write: for output positions i, i plus one,
and so on, r positions in all, write the source char when the position
is within the source, else a terminator byte. -/
def writeStringLoop (nativeBig : Bool) (s : List Nat) :
    Nat → Nat → BufferStream → Option StreamError × BufferStream
  | _, 0, st => (none, st)
  | i, r + 1, st =>
    match BufferStream.write nativeBig charT
        [if i < s.length then s.getD i 0 else 0] st with
    | (some e, st1) => (some e, st1)
    | (none, st1) => writeStringLoop nativeBig s (i + 1) r st1

/-- The string write: derive the byte budget when none was given (source
length, plus one for an added terminator, minus one for a bundled
terminator that must not be kept), check room or grow, then run the
loop. -/
def BufferStream.writeString (nativeBig : Bool) (st : BufferStream)
    (s : List Nat) (addNull : Bool) (maxSize : Nat) :
    Option StreamError × BufferStream :=
  let bundled : Bool := !s.isEmpty && (s.getLast? == some 0)
  let m := if maxSize = 0 then
      s.length + (if addNull then 1 else 0) - (if bundled then 1 else 0)
    else maxSize
  if st.bufferLen < st.bufferPos + m then
    if st.growable then
      writeStringLoop nativeBig s 0 m
        (BufferStream.resizeBuffer st (st.bufferPos + m)).2
    else if st.useExceptions then
      (some .outOfBounds, st)
    else
      writeStringLoop nativeBig s 0 m st
  else
    writeStringLoop nativeBig s 0 m st

/-- The position a seek resolves to, as an unbounded integer: offset
from beg, position plus offset from cur, length minus offset from
end. -/
def seekTarget (st : BufferStream) (offset : Int) (dir : SeekDir) : Int :=
  match dir with
  | .beg => offset
  | .cur => (st.bufferPos : Int) + offset
  | .fromEnd => (st.bufferLen : Int) - offset

/-- The chars the string write loop emits for output positions i up to
i plus r excluded: the source char when the position is within the
source, else a terminator byte. -/
def stringChars (s : List Nat) : Nat → Nat → List Nat
  | _, 0 => []
  | i, r + 1 =>
    (if i < s.length then s.getD i 0 else 0) :: stringChars s (i + 1) r

/-! Helper lemmas about the byte level primitives. -/

theorem writeBytes_length (cs : List Nat) : ∀ (buf : List Nat) (pos : Nat),
    (writeBytes buf pos cs).length = buf.length := by
  induction cs with
  | nil => intro buf pos; rfl
  | cons c cs ih =>
    intro buf pos
    simp [writeBytes, ih]

theorem writeBytes_getD_lt (cs : List Nat) : ∀ (buf : List Nat) (pos i : Nat),
    i < pos → (writeBytes buf pos cs).getD i 0 = buf.getD i 0 := by
  induction cs with
  | nil => intro buf pos i _; rfl
  | cons c cs ih =>
    intro buf pos i hi
    show (writeBytes (buf.set pos c) (pos + 1) cs).getD i 0 = buf.getD i 0
    rw [ih (buf.set pos c) (pos + 1) i (by omega)]
    simp only [List.getD_eq_getElem?_getD]
    rw [List.getElem?_set_ne (by omega)]

theorem writeBytes_getD_in (cs : List Nat) : ∀ (buf : List Nat) (pos i : Nat),
    i < cs.length → pos + cs.length ≤ buf.length →
    (writeBytes buf pos cs).getD (pos + i) 0 = cs.getD i 0 := by
  induction cs with
  | nil => intro buf pos i hi _; simp at hi
  | cons c cs ih =>
    intro buf pos i hi hlen
    match i with
    | 0 =>
      show (writeBytes (buf.set pos c) (pos + 1) cs).getD (pos + 0) 0 = c
      rw [writeBytes_getD_lt cs (buf.set pos c) (pos + 1) (pos + 0) (by omega)]
      simp only [List.getD_eq_getElem?_getD, Nat.add_zero]
      rw [List.getElem?_set_self (by simp at hlen; omega)]
      rfl
    | i + 1 =>
      show (writeBytes (buf.set pos c) (pos + 1) cs).getD (pos + (i + 1)) 0
        = (c :: cs).getD (i + 1) 0
      have : pos + (i + 1) = (pos + 1) + i := by omega
      rw [this]
      rw [ih (buf.set pos c) (pos + 1) i (by simp at hi; omega)
        (by simp at hlen ⊢; omega)]
      rfl

theorem readBytes_eq_of_getD : ∀ (n : Nat) (buf bs : List Nat) (pos : Nat),
    bs.length = n → (∀ i, i < n → buf.getD (pos + i) 0 = bs.getD i 0) →
    readBytes buf pos n = bs := by
  intro n
  induction n with
  | zero =>
    intro buf bs pos hlen _
    exact (List.eq_nil_of_length_eq_zero hlen).symm ▸ rfl
  | succ n ih =>
    intro buf bs pos hlen h
    match bs with
    | [] => simp at hlen
    | b :: bs =>
      show buf.getD pos 0 :: readBytes buf (pos + 1) n = b :: bs
      have hhead : buf.getD pos 0 = b := by
        have := h 0 (by omega)
        simpa using this
      have htail : readBytes buf (pos + 1) n = bs := by
        apply ih buf bs (pos + 1) (by simpa using hlen)
        intro i hi
        have := h (i + 1) (by omega)
        have harith : pos + (i + 1) = pos + 1 + i := by omega
        rw [harith] at this
        simpa using this
      rw [hhead, htail]

theorem readBytes_congr : ∀ (n : Nat) (b1 b2 : List Nat) (pos : Nat),
    (∀ i, i < n → b1.getD (pos + i) 0 = b2.getD (pos + i) 0) →
    readBytes b1 pos n = readBytes b2 pos n := by
  intro n
  induction n with
  | zero => intro b1 b2 pos _; rfl
  | succ n ih =>
    intro b1 b2 pos h
    show b1.getD pos 0 :: readBytes b1 (pos + 1) n
      = b2.getD pos 0 :: readBytes b2 (pos + 1) n
    have hhead : b1.getD pos 0 = b2.getD pos 0 := by simpa using h 0 (by omega)
    have htail : readBytes b1 (pos + 1) n = readBytes b2 (pos + 1) n := by
      apply ih
      intro i hi
      have := h (i + 1) (by omega)
      have harith : pos + (i + 1) = pos + 1 + i := by omega
      rwa [harith] at this
    rw [hhead, htail]

theorem readBytes_writeBytes (cs buf : List Nat) (pos : Nat)
    (h : pos + cs.length ≤ buf.length) :
    readBytes (writeBytes buf pos cs) pos cs.length = cs := by
  apply readBytes_eq_of_getD cs.length (writeBytes buf pos cs) cs pos rfl
  intro i hi
  exact writeBytes_getD_in cs buf pos i hi h

theorem readBytes_length : ∀ (n : Nat) (buf : List Nat) (pos : Nat),
    (readBytes buf pos n).length = n := by
  intro n
  induction n with
  | zero => intro buf pos; rfl
  | succ n ih => intro buf pos; simp [readBytes, ih]

theorem containerResize_getD (bytes : List Nat) (n i : Nat)
    (h1 : i < n) (h2 : i < bytes.length) :
    (containerResize bytes n).getD i 0 = bytes.getD i 0 := by
  unfold containerResize
  simp only [List.getD_eq_getElem?_getD]
  rw [List.getElem?_append_left (by simp; omega)]
  rw [List.getElem?_take_of_lt h1]

theorem growStep_lt (c : Nat) : c < growStep c := by
  unfold growStep
  split <;> omega

theorem growStep_iterate_ge (c : Nat) : ∀ k, c ≤ growStep^[k] c := by
  intro k
  induction k with
  | zero => simp
  | succ k ih =>
    rw [Function.iterate_succ_apply']
    exact le_trans ih (le_of_lt (growStep_lt _))

theorem growCountAux_spec (s target : Nat) (hs : 1 ≤ s) :
    ∀ (fuel cur : Nat), target ≤ cur * s + fuel →
    ∃ k, growCountAux s target fuel cur = growStep^[k] cur ∧
      target ≤ growStep^[k] cur * s ∧
      ∀ j, j < k → growStep^[j] cur * s < target := by
  intro fuel
  induction fuel with
  | zero =>
    intro cur hcur
    exact ⟨0, rfl, by simpa using hcur, by omega⟩
  | succ fuel ih =>
    intro cur hcur
    by_cases h : cur * s < target
    · have hstep : cur * s + 1 ≤ growStep cur * s := by
        have h1 : cur + 1 ≤ growStep cur := growStep_lt cur
        have h2 : (cur + 1) * s ≤ growStep cur * s := Nat.mul_le_mul_right s h1
        have h3 : (cur + 1) * s = cur * s + s := by ring
        omega
      obtain ⟨k, hk, hge, hmin⟩ := ih (growStep cur) (by omega)
      refine ⟨k + 1, ?_, ?_, ?_⟩
      · show growCountAux s target (fuel + 1) cur = growStep^[k + 1] cur
        rw [growCountAux, if_pos h, hk, Function.iterate_succ_apply]
      · rw [Function.iterate_succ_apply]; exact hge
      · intro j hj
        match j with
        | 0 => simpa using h
        | j + 1 =>
          rw [Function.iterate_succ_apply]
          exact hmin j (by omega)
    · refine ⟨0, ?_, by simpa using Nat.le_of_not_lt h, by omega⟩
      show growCountAux s target (fuel + 1) cur = cur
      rw [growCountAux, if_neg h]

theorem growCount_spec (s cur target : Nat) (hs : 1 ≤ s) :
    ∃ k, growCount s cur target = growStep^[k] cur ∧
      target ≤ growStep^[k] cur * s ∧
      ∀ j, j < k → growStep^[j] cur * s < target := by
  exact growCountAux_spec s target hs target cur (by omega)

theorem growCount_mul_ge (s cur target : Nat) (hs : 1 ≤ s) :
    target ≤ growCount s cur target * s := by
  obtain ⟨k, hk, hge, _⟩ := growCount_spec s cur target hs
  rw [hk]; exact hge

theorem growCount_ge_cur (s cur target : Nat) (hs : 1 ≤ s) :
    cur ≤ growCount s cur target := by
  obtain ⟨k, hk, _, _⟩ := growCount_spec s cur target hs
  rw [hk]; exact growStep_iterate_ge cur k

theorem wrap64_coe (n : Nat) (h : n < 2 ^ 64) : wrap64 (n : Int) = n := by
  unfold wrap64; omega

theorem wrap64_eq_toNat (x : Int) (h0 : 0 ≤ x) (h : x < 2 ^ 64) :
    wrap64 x = x.toNat := by
  unfold wrap64; omega

theorem toSigned64_eq (n : Nat) (h : n < 2 ^ 63) : toSigned64 n = (n : Int) := by
  unfold toSigned64; rw [if_pos h]

/-- C10: when read fails with UnsupportedEndianSwap (exceptions enabled,
multi byte non arithmetic non enum type, endianness differing from host
native), the cursor state including its position is unchanged, but the
destination object was already overwritten with the raw unswapped bytes
at the current position. -/
theorem c10_read_unsupported_swap_overwrites_dest (nativeBig : Bool)
    (t : PODType) (st : BufferStream) (hx : st.useExceptions = true)
    (hsz : 1 < t.size) (hna : t.isArith = false)
    (he : st.bigEndian ≠ nativeBig)
    (hroom : st.bufferPos + t.size ≤ st.bufferLen) :
    BufferStream.read nativeBig t st =
      (some .unsupportedEndianSwap,
        some (readBytes st.buffer st.bufferPos t.size), st) := by
  unfold BufferStream.read
  rw [if_neg (fun h => absurd h.2 (by omega))]
  simp only [if_pos (And.intro hsz he)]
  rw [if_neg (by simp [hna]), if_pos (by rw [hx])]

/-- Witness for c10 at a concrete input: a two byte non arithmetic
value read from a big endian cursor on a little endian host. -/
theorem c10_witness :
    BufferStream.read false ⟨2, false⟩
      ⟨[3, 4], 2, 0, false, 1, 2, true, true⟩ =
      (some .unsupportedEndianSwap, some [3, 4],
        ⟨[3, 4], 2, 0, false, 1, 2, true, true⟩) :=
  c10_read_unsupported_swap_overwrites_dest false ⟨2, false⟩
    ⟨[3, 4], 2, 0, false, 1, 2, true, true⟩ rfl (by decide) rfl
    (by decide) (by decide)

/-- C3 counterexample: writing a two byte non arithmetic aggregate with
mismatched endianness and exceptions enabled does fail with
UnsupportedEndianSwap, but the destination region is NOT unchanged: the
raw bytes were committed before the throw. -/
theorem c3_counterexample :
    (BufferStream.write false ⟨2, false⟩ [1, 2]
        ⟨[0, 0], 2, 0, false, 1, 2, true, true⟩).1
      = some .unsupportedEndianSwap ∧
    (BufferStream.write false ⟨2, false⟩ [1, 2]
        ⟨[0, 0], 2, 0, false, 1, 2, true, true⟩).2.buffer ≠ [0, 0] := by
  decide

/-- C3 amended: the write fails with UnsupportedEndianSwap and leaves
the position unchanged, but the destination region has already received
the raw unswapped bytes of the value: the memcpy commits before the
endianness check, and the swap would happen in place, not on a copy. -/
theorem c3_amended_write_commits_raw_bytes (nativeBig : Bool) (t : PODType)
    (v : List Nat) (st : BufferStream) (hx : st.useExceptions = true)
    (hsz : 1 < t.size) (hna : t.isArith = false)
    (he : st.bigEndian ≠ nativeBig)
    (hroom : st.bufferPos + t.size ≤ st.bufferLen) :
    BufferStream.write nativeBig t v st =
      (some .unsupportedEndianSwap,
        { st with buffer := writeBytes st.buffer st.bufferPos v }) := by
  unfold BufferStream.write
  rw [if_neg (by omega)]
  unfold BufferStream.writeCommit
  simp only [if_pos (And.intro hsz he)]
  rw [if_neg (by simp [hna]), if_pos (by rw [hx])]

/-- Witness for the amended c3 at a concrete input. -/
theorem c3_amended_witness :
    BufferStream.write false ⟨2, false⟩ [1, 2]
      ⟨[0, 0], 2, 0, false, 1, 2, true, true⟩ =
      (some .unsupportedEndianSwap,
        ⟨[1, 2], 2, 0, false, 1, 2, true, true⟩) :=
  c3_amended_write_commits_raw_bytes false ⟨2, false⟩ [1, 2]
    ⟨[0, 0], 2, 0, false, 1, 2, true, true⟩ rfl (by decide) rfl
    (by decide) (by decide)

/-- C9: when a write overflows the current length on a growable cursor,
the resulting length is exactly the requested total (write start
position plus the value size), not the doubled container capacity. -/
theorem c9_growing_write_sets_requested_length (nativeBig : Bool)
    (t : PODType) (v : List Nat) (st : BufferStream)
    (hg : st.growable = true)
    (hover : st.bufferLen < st.bufferPos + t.size) :
    ((BufferStream.write nativeBig t v st).2).bufferLen
      = st.bufferPos + t.size := by
  unfold BufferStream.write
  rw [if_pos hover, if_pos (by rw [hg])]
  unfold BufferStream.resizeBuffer
  rw [if_pos (by rw [hg])]
  simp only [BufferStream.writeCommit]
  split_ifs <;> rfl

/-- Witness for c9: an empty growable byte container receives a five
byte value; the container doubles to eight elements but size() reports
five. -/
theorem c9_witness :
    ((BufferStream.write false ⟨5, true⟩ [1, 2, 3, 4, 5]
        ⟨[], 0, 0, true, 1, 0, true, false⟩).2).bufferLen = 0 + 5 ∧
    ((BufferStream.write false ⟨5, true⟩ [1, 2, 3, 4, 5]
        ⟨[], 0, 0, true, 1, 0, true, false⟩).2).elemCount = 8 :=
  ⟨c9_growing_write_sets_requested_length false ⟨5, true⟩ [1, 2, 3, 4, 5]
      ⟨[], 0, 0, true, 1, 0, true, false⟩ rfl (by decide),
    by decide⟩

/-- C2 evaluated at the failing input: on a one byte cursor positioned
at the end (position equals length, exceptions enabled), peek() and
at(length, start) signal no error at all, resolving to the out of
bounds byte index one past the buffer, while the typed read at the same
position does fail with OutOfBounds as the claim requires. -/
theorem c2_peek_at_end_does_not_fail :
    (BufferStream.peekByte ⟨[7], 1, 1, false, 1, 1, true, false⟩).1 = none ∧
    (BufferStream.atByte ⟨[7], 1, 1, false, 1, 1, true, false⟩ 1 .beg).1
      = none ∧
    (BufferStream.read false byteT ⟨[7], 1, 1, false, 1, 1, true, false⟩).1
      = some .outOfBounds := by
  decide

/-- C4 counterexample: on a four byte cursor with exceptions enabled and
position zero, the offset four is in bounds in the sense of the claim
(between zero and length), yet at with a one byte type at offset four
from start throws OutOfBounds from the inner read and leaves the
position at four, not restored to zero. -/
theorem c4_counterexample :
    (BufferStream.atT false byteT 4 .beg
        ⟨[0, 0, 0, 0], 4, 0, false, 1, 4, true, false⟩).1
      = some .outOfBounds ∧
    (BufferStream.atT false byteT 4 .beg
        ⟨[0, 0, 0, 0], 4, 0, false, 1, 4, true, false⟩).2.2.bufferPos = 4 := by
  decide

/-- A successful read: with room for the value and an endianness
setting the type supports, read returns the raw bytes, reversed when a
swap applies, and advances the position by the value size. -/
theorem read_ok (nativeBig : Bool) (t : PODType) (st : BufferStream)
    (hroom : st.bufferPos + t.size ≤ st.bufferLen)
    (hend : st.bigEndian = nativeBig ∨ t.isArith = true) :
    BufferStream.read nativeBig t st =
      (none,
        some (if 1 < t.size ∧ st.bigEndian ≠ nativeBig
          then (readBytes st.buffer st.bufferPos t.size).reverse
          else readBytes st.buffer st.bufferPos t.size),
        { st with bufferPos := st.bufferPos + t.size }) := by
  unfold BufferStream.read
  rw [if_neg (fun h => absurd h.2 (by omega))]
  by_cases hsw : 1 < t.size ∧ st.bigEndian ≠ nativeBig
  · have harith : t.isArith = true := by
      rcases hend with h | h
      · exact absurd h hsw.2
      · exact h
    simp only [if_pos hsw, harith, if_true]
  · simp only [if_neg hsw]

/-- A successful write: with room for the value (so no growth) and an
endianness setting the type supports, write stores the value bytes,
reverses them in place when a swap applies, and advances the position
by the value size. -/
theorem write_ok (nativeBig : Bool) (t : PODType) (v : List Nat)
    (st : BufferStream)
    (hroom : st.bufferPos + t.size ≤ st.bufferLen)
    (hend : st.bigEndian = nativeBig ∨ t.isArith = true) :
    BufferStream.write nativeBig t v st =
      (none,
        { st with
          buffer := if 1 < t.size ∧ st.bigEndian ≠ nativeBig
            then writeBytes (writeBytes st.buffer st.bufferPos v)
              st.bufferPos
              (readBytes (writeBytes st.buffer st.bufferPos v) st.bufferPos
                t.size).reverse
            else writeBytes st.buffer st.bufferPos v,
          bufferPos := st.bufferPos + t.size }) := by
  unfold BufferStream.write
  rw [if_neg (by omega)]
  unfold BufferStream.writeCommit
  by_cases hsw : 1 < t.size ∧ st.bigEndian ≠ nativeBig
  · have harith : t.isArith = true := by
      rcases hend with h | h
      · exact absurd h hsw.2
      · exact h
    simp only [if_pos hsw, harith, if_true]
  · simp only [if_neg hsw]

/-- C8: with exceptions enabled, seek fails with OutOfBounds whenever
the position it resolves to (offset from start, position plus offset
from current, length minus offset from end) lies outside the closed
range from zero to length.  The machine integer hypotheses keep the
uint64 wrap of the source out of play, as it is for any real buffer. -/
theorem c8_seek_out_of_bounds (st : BufferStream) (offset : Int)
    (dir : SeekDir) (hx : st.useExceptions = true)
    (hp : st.bufferPos < 2 ^ 63) (hl : st.bufferLen < 2 ^ 63)
    (ho1 : -(2 ^ 63) ≤ offset) (ho2 : offset < 2 ^ 63)
    (hout : seekTarget st offset dir < 0
      ∨ (st.bufferLen : Int) < seekTarget st offset dir) :
    (BufferStream.seek st offset dir).1 = some .outOfBounds := by
  cases dir with
  | beg =>
    have hcond : st.useExceptions = true
        ∧ ((st.bufferLen : Int) < offset ∨ offset < 0) := by
      refine ⟨hx, ?_⟩
      simp only [seekTarget] at hout
      omega
    simp only [BufferStream.seek, if_pos hcond]
  | cur =>
    have hcond : st.useExceptions = true
        ∧ (st.bufferLen < wrap64 ((st.bufferPos : Int) + offset)
          ∨ toSigned64 st.bufferPos + offset < 0) := by
      refine ⟨hx, ?_⟩
      simp only [seekTarget] at hout
      rw [toSigned64_eq st.bufferPos hp]
      unfold wrap64
      omega
    simp only [BufferStream.seek, if_pos hcond]
  | fromEnd =>
    have hcond : st.useExceptions = true
        ∧ ((st.bufferLen : Int) < offset ∨ offset < 0) := by
      refine ⟨hx, ?_⟩
      simp only [seekTarget] at hout
      omega
    simp only [BufferStream.seek, if_pos hcond]

/-- Witness for c8: on an eight byte cursor, seek to length plus one
from start fails, and seek by minus one from current at position zero
fails. -/
theorem c8_witness :
    (BufferStream.seek ⟨[0, 0, 0, 0, 0, 0, 0, 0], 8, 0, false, 1, 8,
        true, false⟩ 9 .beg).1 = some .outOfBounds ∧
    (BufferStream.seek ⟨[0, 0, 0, 0, 0, 0, 0, 0], 8, 0, false, 1, 8,
        true, false⟩ (-1) .cur).1 = some .outOfBounds :=
  ⟨c8_seek_out_of_bounds _ 9 .beg rfl (by decide) (by decide) (by decide)
      (by decide) (by decide),
    c8_seek_out_of_bounds _ (-1) .cur rfl (by decide) (by decide)
      (by decide) (by decide) (by decide)⟩

/-- C4 amended: at with a POD type at offset k from start leaves the
position unchanged (indeed the whole state unchanged) whenever the
inner read succeeds, i.e. when k plus the value size is within length
and the endianness setting is native or the type is swappable.  For k
that is in bounds as a position (up to length) but too close to the end
for the value, the inner read throws and the position stays at k, which
is the content of the counterexample. -/
theorem c4_amended_at_restores_position (nativeBig : Bool) (t : PODType)
    (k : Nat) (st : BufferStream)
    (hpos : st.bufferPos ≤ st.bufferLen)
    (hl : st.bufferLen < 2 ^ 63)
    (hk : k + t.size ≤ st.bufferLen)
    (hend : st.bigEndian = nativeBig ∨ t.isArith = true) :
    (BufferStream.atT nativeBig t (k : Int) .beg st).1 = none ∧
    (BufferStream.atT nativeBig t (k : Int) .beg st).2.2 = st := by
  have hseek : BufferStream.seek st (k : Int) .beg =
      (none, { st with bufferPos := k }) := by
    simp only [BufferStream.seek]
    rw [if_neg (by intro h; rcases h.2 with h2 | h2 <;> omega)]
    rw [wrap64_coe k (by omega)]
  have hread := read_ok nativeBig t { st with bufferPos := k }
    (by simp; omega) hend
  have hseekback : BufferStream.seek { st with bufferPos := k + t.size }
      (toSigned64 st.bufferPos) .beg = (none, st) := by
    rw [toSigned64_eq st.bufferPos (by omega)]
    simp only [BufferStream.seek]
    rw [if_neg (by intro h; rcases h.2 with h2 | h2 <;> omega)]
    rw [wrap64_coe st.bufferPos (by omega)]
  unfold BufferStream.atT
  simp only [hseek, hread, hseekback]
  constructor <;> trivial

/-- Witness for the amended c4: reading a two byte value at offset two
of a four byte cursor positioned at one reports no error and leaves the
stream exactly as it was. -/
theorem c4_amended_witness :
    (BufferStream.atT false ⟨2, true⟩ (2 : Nat) .beg
        ⟨[5, 6, 7, 8], 4, 1, false, 1, 4, true, false⟩).1 = none ∧
    (BufferStream.atT false ⟨2, true⟩ (2 : Nat) .beg
        ⟨[5, 6, 7, 8], 4, 1, false, 1, 4, true, false⟩).2.2
      = ⟨[5, 6, 7, 8], 4, 1, false, 1, 4, true, false⟩ :=
  c4_amended_at_restores_position false ⟨2, true⟩ 2
    ⟨[5, 6, 7, 8], 4, 1, false, 1, 4, true, false⟩ (by decide) (by decide)
    (by decide) (Or.inl rfl)

/-- A successful seek to an absolute in range position. -/
theorem seek_beg_ok (st : BufferStream) (p : Nat)
    (hp : p ≤ st.bufferLen) (hl : st.bufferLen < 2 ^ 64) :
    BufferStream.seek st (p : Int) .beg = (none, { st with bufferPos := p }) := by
  simp only [BufferStream.seek]
  rw [if_neg (by intro h; rcases h.2 with h2 | h2 <;> omega)]
  rw [wrap64_coe p (by omega)]

/-- C1: for every fixed layout POD type and value, on a cursor with
enough room, write followed by a seek back to the write start and a
read returns a value equal to the one written; this holds at the native
endianness setting for every such type, and at the opposite setting
whenever the type is integral, floating point, or enumeration. -/
theorem c1_write_seek_read_roundtrip (nativeBig : Bool) (t : PODType)
    (v : List Nat) (st : BufferStream)
    (hv : v.length = t.size)
    (hroom : st.bufferPos + t.size ≤ st.bufferLen)
    (hbuf : st.bufferLen ≤ st.buffer.length)
    (hl : st.bufferLen < 2 ^ 63)
    (hend : st.bigEndian = nativeBig ∨ t.isArith = true) :
    (BufferStream.write nativeBig t v st).1 = none ∧
    (BufferStream.seek (BufferStream.write nativeBig t v st).2
        (st.bufferPos : Int) .beg).1 = none ∧
    (BufferStream.read nativeBig t
      (BufferStream.seek (BufferStream.write nativeBig t v st).2
        (st.bufferPos : Int) .beg).2).1 = none ∧
    (BufferStream.read nativeBig t
      (BufferStream.seek (BufferStream.write nativeBig t v st).2
        (st.bufferPos : Int) .beg).2).2.1 = some v := by
  have hw := write_ok nativeBig t v st hroom hend
  have hs := seek_beg_ok (BufferStream.write nativeBig t v st).2 st.bufferPos
    (by simp only [hw]; omega) (by simp only [hw]; omega)
  have hr := read_ok nativeBig t
    { (BufferStream.write nativeBig t v st).2 with bufferPos := st.bufferPos }
    (by simp only [hw]; omega) (by simp only [hw]; exact hend)
  refine ⟨by rw [hw], by rw [hs], by rw [hs, hr], ?_⟩
  rw [hs, hr]
  simp only [hw]
  by_cases hsw : 1 < t.size ∧ st.bigEndian ≠ nativeBig
  · simp only [if_pos hsw]
    have hr1 : readBytes (writeBytes st.buffer st.bufferPos v)
        st.bufferPos t.size = v := by
      rw [← hv]
      exact readBytes_writeBytes v st.buffer st.bufferPos (by omega)
    rw [hr1]
    have hr2 : readBytes
        (writeBytes (writeBytes st.buffer st.bufferPos v) st.bufferPos
          v.reverse) st.bufferPos t.size = v.reverse := by
      have hlen2 : v.reverse.length = t.size := by
        rw [List.length_reverse, hv]
      rw [← hlen2]
      apply readBytes_writeBytes
      rw [writeBytes_length, List.length_reverse]
      omega
    rw [hr2, List.reverse_reverse]
  · simp only [if_neg hsw]
    rw [← hv]
    rw [readBytes_writeBytes v st.buffer st.bufferPos (by omega)]

/-- Witness for c1: a two byte integral value round trips through a big
endian cursor on a little endian host, written at position one of a
three byte buffer. -/
theorem c1_witness :
    (BufferStream.write false ⟨2, true⟩ [1, 2]
        ⟨[9, 0, 0], 3, 1, false, 1, 3, true, true⟩).1 = none ∧
    (BufferStream.seek (BufferStream.write false ⟨2, true⟩ [1, 2]
        ⟨[9, 0, 0], 3, 1, false, 1, 3, true, true⟩).2 ((1 : Nat) : Int)
        .beg).1 = none ∧
    (BufferStream.read false ⟨2, true⟩
      (BufferStream.seek (BufferStream.write false ⟨2, true⟩ [1, 2]
        ⟨[9, 0, 0], 3, 1, false, 1, 3, true, true⟩).2 ((1 : Nat) : Int)
        .beg).2).1 = none ∧
    (BufferStream.read false ⟨2, true⟩
      (BufferStream.seek (BufferStream.write false ⟨2, true⟩ [1, 2]
        ⟨[9, 0, 0], 3, 1, false, 1, 3, true, true⟩).2 ((1 : Nat) : Int)
        .beg).2).2.1 = some [1, 2] :=
  c1_write_seek_read_roundtrip false ⟨2, true⟩ [1, 2]
    ⟨[9, 0, 0], 3, 1, false, 1, 3, true, true⟩ (by decide) (by decide)
    (by decide) (by decide) (Or.inr rfl)

/-- A successful relative seek forward by a natural count. -/
theorem seek_cur_nat_ok (st : BufferStream) (r : Nat)
    (h : st.bufferPos + r ≤ st.bufferLen) (hl : st.bufferLen < 2 ^ 63) :
    BufferStream.seek st (r : Int) .cur =
      (none, { st with bufferPos := st.bufferPos + r }) := by
  have hcast : (st.bufferPos : Int) + (r : Int)
      = ((st.bufferPos + r : Nat) : Int) := by push_cast; ring
  simp only [BufferStream.seek]
  rw [if_neg ?hc]
  case hc =>
    intro hcond
    rcases hcond.2 with h2 | h2
    · rw [hcast, wrap64_coe _ (by omega)] at h2
      omega
    · rw [toSigned64_eq st.bufferPos (by omega)] at h2
      omega
  rw [hcast, wrap64_coe _ (by omega)]

/-- A successful skip of r single byte units. -/
theorem skip_ok (st : BufferStream) (r : Nat)
    (h : st.bufferPos + r ≤ st.bufferLen) (hl : st.bufferLen < 2 ^ 63) :
    BufferStream.skip st 1 (r : Int) =
      (none, { st with bufferPos := st.bufferPos + r }) := by
  unfold BufferStream.skip
  by_cases h0 : (r : Int) = 0
  · have hr0 : r = 0 := by omega
    subst hr0
    rw [if_pos (by norm_num)]
    simp
  · rw [if_neg h0]
    rw [show ((1 : Nat) : Int) * (r : Int) = (r : Int) by push_cast; ring]
    rw [wrap64_coe r (by omega), toSigned64_eq r (by omega)]
    exact seek_cur_nat_ok st r h hl

/-- A successful one byte char read. -/
theorem read_char_ok (nativeBig : Bool) (st : BufferStream)
    (hroom : st.bufferPos + 1 ≤ st.bufferLen) :
    BufferStream.read nativeBig charT st =
      (none, some [st.buffer.getD st.bufferPos 0],
        { st with bufferPos := st.bufferPos + 1 }) := by
  have h := read_ok nativeBig charT st hroom (Or.inr rfl)
  rw [h]
  simp [charT, readBytes]

/-- The counted string read loop: with the whole window in bounds it
never fails, consumes exactly its char budget, and accumulates the
window bytes, cut at the first terminator when stopping there. -/
theorem readStringLoop_ok (nativeBig : Bool) (stop : Bool) :
    ∀ (r : Nat) (st : BufferStream) (acc : List Nat),
    st.bufferPos + r ≤ st.bufferLen → st.bufferLen < 2 ^ 63 →
    readStringLoop nativeBig stop r acc st =
      (none,
        acc ++ (if stop
          then (readBytes st.buffer st.bufferPos r).takeWhile
            (fun c => c != 0)
          else readBytes st.buffer st.bufferPos r),
        { st with bufferPos := st.bufferPos + r }) := by
  intro r
  induction r with
  | zero =>
    intro st acc h hl
    simp [readStringLoop, readBytes]
  | succ r ih =>
    intro st acc h hl
    rw [readStringLoop, read_char_ok nativeBig st (by omega)]
    show (if st.buffer.getD st.bufferPos 0 = 0 ∧ stop = true then _ else _)
      = _
    by_cases hc : st.buffer.getD st.bufferPos 0 = 0 ∧ stop = true
    · rw [if_pos hc]
      rw [skip_ok { st with bufferPos := st.bufferPos + 1 } r
        (by simp; omega) (by simp; omega)]
      show (none, acc, _) = _
      rw [readBytes, hc.1, hc.2]
      have harith : st.bufferPos + 1 + r = st.bufferPos + (r + 1) := by omega
      simp [harith]
    · rw [if_neg hc]
      rw [ih { st with bufferPos := st.bufferPos + 1 } (acc ++ [_])
        (by simp; omega) (by simp; omega)]
      rw [readBytes]
      have harith : st.bufferPos + 1 + r = st.bufferPos + (r + 1) := by omega
      by_cases hstop : stop = true
      · have hne : ¬(st.buffer.getD st.bufferPos 0 = 0) := by
          rcases Decidable.not_and_iff_or_not.mp hc with h1 | h1
          · exact h1
          · exact absurd hstop h1
        simp [hstop, harith, hne]
        rw [List.takeWhile_cons, if_pos (by simpa using hne)]
      · have hsf : stop = false := by
          cases stop
          · rfl
          · exact absurd rfl hstop
        simp [hsf, harith]

/-- C6: with n bytes available before length, the counted string read
never fails and advances the cursor by exactly n; when stopping on a
terminator the result is the bytes before the first terminator in the
window, with the rest of the window consumed but not appended; when not
stopping, the result is the full n byte window including embedded
terminators. -/
theorem c6_read_string_counted (nativeBig : Bool) (st : BufferStream)
    (n : Nat) (stop : Bool)
    (hn : st.bufferPos + n ≤ st.bufferLen)
    (hl : st.bufferLen < 2 ^ 63) :
    BufferStream.readStringN nativeBig st n stop =
      (none,
        (if stop
          then (readBytes st.buffer st.bufferPos n).takeWhile
            (fun c => c != 0)
          else readBytes st.buffer st.bufferPos n),
        { st with bufferPos := st.bufferPos + n }) := by
  unfold BufferStream.readStringN
  rw [if_neg (fun h => absurd h.2 (by omega))]
  have h := readStringLoop_ok nativeBig stop n st [] hn hl
  simpa using h

/-- Witness for c6, the example of the spec: Hello world followed by
three terminators, read with a budget of thirteen chars stopping at the
terminator, returns the eleven text bytes with the cursor at offset
thirteen. -/
theorem c6_witness :
    BufferStream.readStringN false
      ⟨[72, 101, 108, 108, 111, 32, 119, 111, 114, 108, 100, 0, 0, 0],
        14, 0, false, 1, 14, true, false⟩ 13 true =
      (none, [72, 101, 108, 108, 111, 32, 119, 111, 114, 108, 100],
        ⟨[72, 101, 108, 108, 111, 32, 119, 111, 114, 108, 100, 0, 0, 0],
          14, 13, false, 1, 14, true, false⟩) :=
  c6_read_string_counted false
    ⟨[72, 101, 108, 108, 111, 32, 119, 111, 114, 108, 100, 0, 0, 0],
      14, 0, false, 1, 14, true, false⟩ 13 true (by decide) (by decide)

theorem stringChars_length (s : List Nat) :
    ∀ (r i : Nat), (stringChars s i r).length = r := by
  intro r
  induction r with
  | zero => intro i; rfl
  | succ r ih => intro i; simp [stringChars, ih]

theorem stringChars_getD (s : List Nat) :
    ∀ (r i j : Nat), j < r →
    (stringChars s i r).getD j 0
      = if i + j < s.length then s.getD (i + j) 0 else 0 := by
  intro r
  induction r with
  | zero => intro i j hj; omega
  | succ r ih =>
    intro i j hj
    match j with
    | 0 => simp [stringChars]
    | j + 1 =>
      show (stringChars s (i + 1) r).getD j 0 = _
      rw [ih (i + 1) j (by omega)]
      have harith : i + 1 + j = i + (j + 1) := by omega
      rw [harith]

/-- A successful one byte char write. -/
theorem write_char_ok (nativeBig : Bool) (c : Nat) (st : BufferStream)
    (h : st.bufferPos + 1 ≤ st.bufferLen) :
    BufferStream.write nativeBig charT [c] st =
      (none,
        { st with
          buffer := st.buffer.set st.bufferPos c
          bufferPos := st.bufferPos + 1 }) := by
  have hw := write_ok nativeBig charT [c] st h (Or.inr rfl)
  rw [hw]
  simp [charT, writeBytes]

/-- The string write loop: with the whole budget in bounds it never
fails, advances by the budget, and stores the emitted chars. -/
theorem writeStringLoop_ok (nativeBig : Bool) (s : List Nat) :
    ∀ (r i : Nat) (st : BufferStream),
    st.bufferPos + r ≤ st.bufferLen →
    writeStringLoop nativeBig s i r st =
      (none, { st with
        buffer := writeBytes st.buffer st.bufferPos (stringChars s i r),
        bufferPos := st.bufferPos + r }) := by
  intro r
  induction r with
  | zero =>
    intro i st h
    simp [writeStringLoop, stringChars, writeBytes]
  | succ r ih =>
    intro i st h
    rw [writeStringLoop,
      write_char_ok nativeBig (if i < s.length then s.getD i 0 else 0) st
        (by omega)]
    show writeStringLoop nativeBig s (i + 1) r
        { st with
          buffer := st.buffer.set st.bufferPos
            (if i < s.length then s.getD i 0 else 0),
          bufferPos := st.bufferPos + 1 } = _
    rw [ih (i + 1) _ (by simp; omega)]
    have harith : st.bufferPos + 1 + r = st.bufferPos + (r + 1) := by omega
    simp [stringChars, writeBytes, harith]

/-- C7: the string write with source s, terminator flag and byte budget
emits exactly m bytes and advances by m, where m is the explicit budget
when nonzero, and otherwise the source length adjusted by one for an
added or dropped terminator; every output position receives the source
char when inside the source and a terminator byte otherwise, so a small
budget truncates with no terminator and a large one pads with
terminator bytes. -/
theorem c7_write_string (nativeBig : Bool) (st : BufferStream)
    (s : List Nat) (addNull : Bool) (maxSize : Nat) (m : Nat)
    (hm : m = if maxSize = 0
      then s.length + (if addNull then 1 else 0)
        - (if (!s.isEmpty && (s.getLast? == some 0)) then 1 else 0)
      else maxSize)
    (hroom : st.bufferPos + m ≤ st.bufferLen)
    (hbuf : st.bufferLen ≤ st.buffer.length) :
    BufferStream.writeString nativeBig st s addNull maxSize =
      (none, { st with
        buffer := writeBytes st.buffer st.bufferPos (stringChars s 0 m),
        bufferPos := st.bufferPos + m }) ∧
    ∀ j, j < m →
      (BufferStream.writeString nativeBig st s addNull maxSize).2.buffer.getD
        (st.bufferPos + j) 0 = if j < s.length then s.getD j 0 else 0 := by
  have hmain : BufferStream.writeString nativeBig st s addNull maxSize =
      (none, { st with
        buffer := writeBytes st.buffer st.bufferPos (stringChars s 0 m),
        bufferPos := st.bufferPos + m }) := by
    simp only [BufferStream.writeString]
    rw [← hm]
    rw [if_neg (by omega)]
    exact writeStringLoop_ok nativeBig s m 0 st hroom
  refine ⟨hmain, ?_⟩
  intro j hj
  rw [hmain]
  show (writeBytes st.buffer st.bufferPos (stringChars s 0 m)).getD
      (st.bufferPos + j) 0 = _
  rw [writeBytes_getD_in (stringChars s 0 m) st.buffer st.bufferPos j
    (by rw [stringChars_length]; omega)
    (by rw [stringChars_length]; omega)]
  rw [stringChars_getD s m 0 j hj]
  simp

/-- Witness for c7, the two examples of the spec: writing Hello with a
terminator and no explicit budget emits six bytes; writing Hello with
an explicit budget of three emits exactly Hel and no terminator. -/
theorem c7_witness :
    BufferStream.writeString false
      ⟨[9, 9, 9, 9, 9, 9, 9], 7, 0, false, 1, 7, true, false⟩
      [72, 101, 108, 108, 111] true 0 =
      (none, ⟨[72, 101, 108, 108, 111, 0, 9], 7, 6, false, 1, 7, true,
        false⟩) ∧
    BufferStream.writeString false
      ⟨[9, 9, 9, 9], 4, 0, false, 1, 4, true, false⟩
      [72, 101, 108, 108, 111] true 3 =
      (none, ⟨[72, 101, 108, 9], 4, 3, false, 1, 4, true, false⟩) :=
  ⟨(c7_write_string false ⟨[9, 9, 9, 9, 9, 9, 9], 7, 0, false, 1, 7,
      true, false⟩ [72, 101, 108, 108, 111] true 0 6 (by decide)
      (by decide) (by decide)).1,
    (c7_write_string false ⟨[9, 9, 9, 9], 4, 0, false, 1, 4, true,
      false⟩ [72, 101, 108, 108, 111] true 3 3 (by decide) (by decide)
      (by decide)).1⟩

/-- The commit phase of write succeeds whenever the endianness setting
is native or the type is swappable, regardless of room: it stores the
value bytes, reversed in place when a swap applies, and advances. -/
theorem writeCommit_ok (nativeBig : Bool) (t : PODType) (v : List Nat)
    (st : BufferStream)
    (hend : st.bigEndian = nativeBig ∨ t.isArith = true) :
    BufferStream.writeCommit nativeBig t v st =
      (none,
        { st with
          buffer := if 1 < t.size ∧ st.bigEndian ≠ nativeBig
            then writeBytes (writeBytes st.buffer st.bufferPos v)
              st.bufferPos
              (readBytes (writeBytes st.buffer st.bufferPos v) st.bufferPos
                t.size).reverse
            else writeBytes st.buffer st.bufferPos v,
          bufferPos := st.bufferPos + t.size }) := by
  unfold BufferStream.writeCommit
  by_cases hsw : 1 < t.size ∧ st.bigEndian ≠ nativeBig
  · have harith : t.isArith = true := by
      rcases hend with h | h
      · exact absurd h hsw.2
      · exact h
    simp only [if_pos hsw, harith, if_true]
  · simp only [if_neg hsw]

/-- Bytes strictly below the write position are untouched by the commit
phase buffer, whether or not an in place swap applied. -/
theorem commitBuffer_getD_lt (t : PODType) (nativeBig : Bool)
    (v buf : List Nat) (pos : Nat) (big : Bool) (i : Nat) (hi : i < pos) :
    (if 1 < t.size ∧ big ≠ nativeBig
      then writeBytes (writeBytes buf pos v) pos
        (readBytes (writeBytes buf pos v) pos t.size).reverse
      else writeBytes buf pos v).getD i 0 = buf.getD i 0 := by
  split_ifs
  · rw [writeBytes_getD_lt _ _ _ _ hi, writeBytes_getD_lt _ _ _ _ hi]
  · rw [writeBytes_getD_lt _ _ _ _ hi]

/-- C5: a write that exceeds the current length of a growable cursor
succeeds; the installed callback resizes the backing container to the
element count obtained by repeatedly doubling the current count
(starting from one when empty) exactly until the byte capacity reaches
the requested length; and every byte below the write start position is
preserved and reads back unchanged. -/
theorem c5_growable_write_doubles_and_preserves (nativeBig : Bool)
    (t : PODType) (v : List Nat) (st : BufferStream)
    (hg : st.growable = true)
    (hs : 1 ≤ st.elemSize)
    (hover : st.bufferLen < st.bufferPos + t.size)
    (hpos : st.bufferPos ≤ st.bufferLen)
    (hlb : st.bufferLen ≤ st.buffer.length)
    (hend : st.bigEndian = nativeBig ∨ t.isArith = true) :
    (BufferStream.write nativeBig t v st).1 = none ∧
    (BufferStream.write nativeBig t v st).2.elemCount
      = growCount st.elemSize st.elemCount (st.bufferPos + t.size) ∧
    st.bufferPos + t.size
      ≤ (BufferStream.write nativeBig t v st).2.elemCount * st.elemSize ∧
    (∃ k, (BufferStream.write nativeBig t v st).2.elemCount
        = growStep^[k] st.elemCount ∧
      ∀ j, j < k →
        growStep^[j] st.elemCount * st.elemSize
          < st.bufferPos + t.size) ∧
    readBytes (BufferStream.write nativeBig t v st).2.buffer 0 st.bufferPos
      = readBytes st.buffer 0 st.bufferPos := by
  have hR2 : (BufferStream.resizeBuffer st (st.bufferPos + t.size)).2 =
      { st with
        elemCount := growCount st.elemSize st.elemCount
          (st.bufferPos + t.size)
        buffer := containerResize st.buffer
          (growCount st.elemSize st.elemCount (st.bufferPos + t.size)
            * st.elemSize)
        bufferLen := st.bufferPos + t.size } := by
    unfold BufferStream.resizeBuffer
    rw [if_pos (by rw [hg])]
  have hw : BufferStream.write nativeBig t v st =
      BufferStream.writeCommit nativeBig t v
        ((BufferStream.resizeBuffer st (st.bufferPos + t.size)).2) := by
    unfold BufferStream.write
    rw [if_pos hover, if_pos (by rw [hg])]
  have hcommit := writeCommit_ok nativeBig t v
    ((BufferStream.resizeBuffer st (st.bufferPos + t.size)).2)
    (by rw [hR2]; exact hend)
  rw [hw, hcommit, hR2]
  have hcap := growCount_mul_ge st.elemSize st.elemCount
    (st.bufferPos + t.size) hs
  refine ⟨rfl, rfl, ?_, ?_, ?_⟩
  · simpa using hcap
  · obtain ⟨k, hk, _, hmin⟩ := growCount_spec st.elemSize st.elemCount
      (st.bufferPos + t.size) hs
    exact ⟨k, by simpa using hk, hmin⟩
  · apply readBytes_congr
    intro i hi
    simp only [Nat.zero_add]
    rw [commitBuffer_getD_lt t nativeBig v _ _ _ i (by omega)]
    simp only [List.getD_eq_getElem?_getD]
    show (containerResize st.buffer _)[i]?.getD 0 = _
    unfold containerResize
    rw [List.getElem?_append_left (by simp; omega),
      List.getElem?_take_of_lt (by omega)]

/-- Witness for c5: a full three element byte container at position
three receives a two byte value; the count doubles three to six, the
capacity six covers the requested five, and the three old bytes read
back unchanged. -/
theorem c5_witness :
    (BufferStream.write false ⟨2, true⟩ [4, 5]
        ⟨[9, 8, 7], 3, 3, true, 1, 3, true, false⟩).1 = none ∧
    (BufferStream.write false ⟨2, true⟩ [4, 5]
        ⟨[9, 8, 7], 3, 3, true, 1, 3, true, false⟩).2.elemCount
      = growCount 1 3 (3 + 2) ∧
    3 + 2 ≤ (BufferStream.write false ⟨2, true⟩ [4, 5]
        ⟨[9, 8, 7], 3, 3, true, 1, 3, true, false⟩).2.elemCount * 1 ∧
    (∃ k, (BufferStream.write false ⟨2, true⟩ [4, 5]
        ⟨[9, 8, 7], 3, 3, true, 1, 3, true, false⟩).2.elemCount
        = growStep^[k] 3 ∧
      ∀ j, j < k → growStep^[j] 3 * 1 < 3 + 2) ∧
    readBytes (BufferStream.write false ⟨2, true⟩ [4, 5]
        ⟨[9, 8, 7], 3, 3, true, 1, 3, true, false⟩).2.buffer 0 3
      = readBytes [9, 8, 7] 0 3 :=
  c5_growable_write_doubles_and_preserves false ⟨2, true⟩ [4, 5]
    ⟨[9, 8, 7], 3, 3, true, 1, 3, true, false⟩ rfl (by decide) (by decide)
    (by decide) (by decide) (Or.inl rfl)
